import Mathlib

/-!
Shallow embedding of the protoc-gen-example code generator
(src/protocol-buffers/protoc-gen-example/main.go) and proofs about it.

Strings in the Go source that contain brace characters are written here
with the escapes \x7b and \x7d for the opening and closing brace.
-/

namespace ProtocGenExample

/-- Scalar/message/enum kind tag of a field, mirroring
`descriptorpb.FieldDescriptorProto_Type` (all 18 declared values). -/
inductive FieldType where
  | TYPE_DOUBLE
  | TYPE_FLOAT
  | TYPE_INT64
  | TYPE_UINT64
  | TYPE_INT32
  | TYPE_FIXED64
  | TYPE_FIXED32
  | TYPE_BOOL
  | TYPE_STRING
  | TYPE_GROUP
  | TYPE_MESSAGE
  | TYPE_BYTES
  | TYPE_UINT32
  | TYPE_ENUM
  | TYPE_SFIXED32
  | TYPE_SFIXED64
  | TYPE_SINT32
  | TYPE_SINT64
  deriving DecidableEq, Repr

/-- Field label, mirroring `descriptorpb.FieldDescriptorProto_Label`. -/
inductive FieldLabel where
  | LABEL_OPTIONAL
  | LABEL_REQUIRED
  | LABEL_REPEATED
  deriving DecidableEq, Repr

/-- Field descriptor: name, kind, label, and (for message/enum kinds) the
fully-qualified dotted type reference. Proto getters return the empty
string for absent fields, so plain `String` models them. -/
structure FieldDescriptorProto where
  name : String
  type : FieldType
  label : FieldLabel
  typeName : String
  deriving Repr

/-- Message descriptor: name, ordered fields, ordered nested messages
(mirrors `descriptorpb.DescriptorProto`, the parts the generator reads). -/
inductive DescriptorProto where
  | mk (name : String) (field : List FieldDescriptorProto)
       (nestedType : List DescriptorProto)
  deriving Repr

def DescriptorProto.name : DescriptorProto → String
  | .mk n _ _ => n

def DescriptorProto.field : DescriptorProto → List FieldDescriptorProto
  | .mk _ f _ => f

def DescriptorProto.nestedType : DescriptorProto → List DescriptorProto
  | .mk _ _ t => t

/-- File descriptor: name, package, ordered top-level messages. -/
structure FileDescriptorProto where
  name : String
  package : String
  messageType : List DescriptorProto
  deriving Repr

/-- CodeGeneratorRequest: names to generate plus the descriptor pool. -/
structure CodeGeneratorRequest where
  fileToGenerate : List String
  protoFile : List FileDescriptorProto
  deriving Repr

/-- One generated file record of the response. -/
structure ResponseFile where
  name : String
  content : String
  deriving Repr, DecidableEq

/-- CodeGeneratorResponse: file records plus the capability bit-field
(`SupportedFeatures`, a `*uint64` in Go, hence `Option Nat`). -/
structure CodeGeneratorResponse where
  file : List ResponseFile
  supportedFeatures : Option Nat
  deriving Repr

/-- `pluginpb.CodeGeneratorResponse_FEATURE_PROTO3_OPTIONAL` has value 1. -/
def FEATURE_PROTO3_OPTIONAL : Nat := 1

/-- Loop body of `camelCase`: walks the characters with the `nextUpper`
flag; underscores set the flag and emit nothing; with the flag set a
lowercase ASCII letter is shifted up by 32, anything else is copied, and
the flag clears; otherwise characters are copied verbatim. -/
def camelCaseAux : List Char → Bool → List Char
  | [], _ => []
  | c :: rest, nextUpper =>
    if c = '_' then
      camelCaseAux rest true
    else if nextUpper then
      (if 'a' ≤ c ∧ c ≤ 'z' then Char.ofNat (c.toNat - 32) else c)
        :: camelCaseAux rest false
    else
      c :: camelCaseAux rest false

/-- `camelCase` from the source: empty input short-circuits to empty,
otherwise the character walk starts with `nextUpper = true`. -/
def camelCase (s : String) : String :=
  if s = "" then "" else ⟨camelCaseAux s.data true⟩

/-- `getTypeName` helper: scan for the last '.' and return the characters
after it, `none` when no '.' occurs (the recursion prefers a dot found
further right, matching the source's right-to-left scan). -/
def afterLastDot : List Char → Option (List Char)
  | [] => none
  | c :: rest =>
    match afterLastDot rest with
    | some suffx => some suffx
    | none => if c = '.' then some rest else none

/-- `getTypeName` from the source: the substring after the last '.', or
the whole string when it has no '.'. -/
def getTypeName (fullName : String) : String :=
  match afterLastDot fullName.data with
  | some suffx => ⟨suffx⟩
  | none => fullName

/-- `getGoType` from the source: resolve the base type by the kind switch
(falling back to the untyped placeholder), then wrap in a slice when the
label is repeated. -/
def getGoType (field : FieldDescriptorProto) : String :=
  let isRepeated := field.label = FieldLabel.LABEL_REPEATED
  let baseType :=
    match field.type with
    | .TYPE_STRING => "string"
    | .TYPE_INT32 => "int32"
    | .TYPE_INT64 => "int64"
    | .TYPE_UINT32 => "uint32"
    | .TYPE_UINT64 => "uint64"
    | .TYPE_BOOL => "bool"
    | .TYPE_FLOAT => "float32"
    | .TYPE_DOUBLE => "float64"
    | .TYPE_BYTES => "[]byte"
    | .TYPE_MESSAGE => "*" ++ getTypeName field.typeName
    | .TYPE_ENUM => getTypeName field.typeName
    | _ => "interface\x7b\x7d"
  if isRepeated then "[]" ++ baseType else baseType

mutual

/-- `generateMessage` from the source: comment line, type header named
`pfx ++ name`, one member line per field in order, closing brace, then
the nested messages with prefix `msgName ++ "_"`. -/
def generateMessage : DescriptorProto → String → String
  | .mk nm fields nested, pfx =>
    let msgName := pfx ++ nm
    "// Generated code for message: " ++ msgName ++ "\n"
      ++ "type " ++ msgName ++ " struct \x7b\n"
      ++ String.join (fields.map (fun f =>
            "\t" ++ camelCase f.name ++ " " ++ getGoType f
              ++ " `json:\"" ++ f.name ++ "\"`\n"))
      ++ "\x7d\n\n"
      ++ generateMessages nested (msgName ++ "_")

/-- The `for _, nested := range msg.NestedType` loop of `generateMessage`. -/
def generateMessages : List DescriptorProto → String → String
  | [], _ => ""
  | m :: rest, pfx => generateMessage m pfx ++ generateMessages rest pfx

end

/-- `generateFile` from the source: package line (defaulting to "main"
when the package string is empty), then every top-level message. -/
def generateFile (file : FileDescriptorProto) : String :=
  let pkgName := if file.package = "" then "main" else file.package
  "package " ++ pkgName ++ "\n\n" ++ generateMessages file.messageType ""

/-- Inner loop of `Generate`: linear scan of the pool for the first
descriptor whose name equals the requested name, with break on match. -/
def findFile : List FileDescriptorProto → String → Option FileDescriptorProto
  | [], _ => none
  | f :: rest, fileName =>
    if f.name = fileName then some f else findFile rest fileName

/-- Outer loop of `Generate`: each requested name in order; no match emits
nothing, a match appends one record named `fileName ++ ".generated.go"`
with `generateFile` output as content. -/
def generateLoop : List String → List FileDescriptorProto → List ResponseFile
  | [], _ => []
  | fileName :: rest, pool =>
    match findFile pool fileName with
    | none => generateLoop rest pool
    | some file =>
      ⟨fileName ++ ".generated.go", generateFile file⟩ :: generateLoop rest pool

/-- `Generate` from the source: run the loop over the requested names,
then set `SupportedFeatures` to `FEATURE_PROTO3_OPTIONAL` unconditionally. -/
def Generate (req : CodeGeneratorRequest) : CodeGeneratorResponse :=
  ⟨generateLoop req.fileToGenerate req.protoFile, some FEATURE_PROTO3_OPTIONAL⟩

/-- Modelled from the spec's words for the identifier normalizer: split a
character list on underscore boundaries; an underscore separates segments
and contributes no character, so leading, trailing or doubled underscores
produce empty segments. -/
def splitOnUnderscore : List Char → List (List Char)
  | [] => [[]]
  | c :: rest =>
    if c = '_' then [] :: splitOnUnderscore rest
    else
      match splitOnUnderscore rest with
      | [] => [[c]]
      | seg :: segs => (c :: seg) :: segs

/-- Modelled from the spec's words: capitalize the first letter of a
segment (an ASCII lowercase first character becomes uppercase, anything
else stays as it is; an empty segment contributes nothing). -/
def capitalizeSegment : List Char → List Char
  | [] => []
  | c :: cs =>
    (if 'a' ≤ c ∧ c ≤ 'z' then Char.ofNat (c.toNat - 32) else c) :: cs

/-- Modelled from the spec's words: split on underscores, capitalize the
first letter of every segment, concatenate with no separator. -/
def specCamelCase (s : String) : String :=
  ⟨((splitOnUnderscore s.data).map capitalizeSegment).flatten⟩

/-- ASCII letters, digits and underscore: the character set the spec
allows in raw schema field names. -/
def isIdentChar (c : Char) : Prop :=
  ('a' ≤ c ∧ c ≤ 'z') ∨ ('A' ≤ c ∧ c ≤ 'Z') ∨ ('0' ≤ c ∧ c ≤ '9') ∨ c = '_'

instance (c : Char) : Decidable (isIdentChar c) := by
  unfold isIdentChar
  infer_instance

theorem splitOnUnderscore_ne_nil (l : List Char) : splitOnUnderscore l ≠ [] := by
  cases l with
  | nil => simp [splitOnUnderscore]
  | cons c rest =>
    simp only [splitOnUnderscore]
    split
    · simp
    · split <;> simp

theorem charOfNatAux_toNat (n : Nat) (h : n.isValidChar) :
    (Char.ofNatAux n h).toNat = n := rfl

theorem lowerShift_ne_underscore (c : Char) (h : 'a' ≤ c ∧ c ≤ 'z') :
    Char.ofNat (c.toNat - 32) ≠ '_' := by
  obtain ⟨h1, h2⟩ := h
  rw [Char.le_def] at h1 h2
  rw [UInt32.le_def] at h1 h2
  have hva : 97 ≤ c.toNat := by simpa [Char.toNat] using h1
  have hvb : c.toNat ≤ 122 := by simpa [Char.toNat] using h2
  intro hEq
  have hval : (c.toNat - 32).isValidChar := by left; omega
  have hx : (Char.ofNat (c.toNat - 32)).toNat = c.toNat - 32 := by
    unfold Char.ofNat
    rw [dif_pos hval]
    exact charOfNatAux_toNat _ _
  rw [hEq] at hx
  have h95 : ('_').toNat = 95 := rfl
  omega

theorem underscore_not_mem_camelCaseAux (l : List Char) (b : Bool) :
    '_' ∉ camelCaseAux l b := by
  induction l generalizing b with
  | nil => simp [camelCaseAux]
  | cons c rest ih =>
    by_cases hc : c = '_'
    · subst hc
      simpa [camelCaseAux] using ih true
    · cases b with
      | true =>
        by_cases hlz : 'a' ≤ c ∧ c ≤ 'z'
        · simp only [camelCaseAux, if_neg hc, if_pos hlz, if_true, List.mem_cons,
            not_or]
          exact ⟨fun h => lowerShift_ne_underscore c hlz h.symm, ih false⟩
        · simp only [camelCaseAux, if_neg hc, if_neg hlz, if_true, List.mem_cons,
            not_or]
          exact ⟨fun h => hc h.symm, ih false⟩
      | false =>
        simp only [camelCaseAux, if_neg hc, Bool.false_eq_true, if_false,
          List.mem_cons, not_or]
        exact ⟨fun h => hc h.symm, ih false⟩

theorem camelCaseAux_eq_spec (l : List Char) :
    camelCaseAux l true = ((splitOnUnderscore l).map capitalizeSegment).flatten
    ∧ camelCaseAux l false =
        (splitOnUnderscore l).headD []
          ++ (((splitOnUnderscore l).tail).map capitalizeSegment).flatten := by
  induction l with
  | nil => exact ⟨rfl, rfl⟩
  | cons c rest ih =>
    obtain ⟨ihT, ihF⟩ := ih
    by_cases hc : c = '_'
    · subst hc
      constructor
      · simp [camelCaseAux, splitOnUnderscore, capitalizeSegment, ihT]
      · simp [camelCaseAux, splitOnUnderscore, capitalizeSegment, ihT]
    · obtain ⟨seg, segs, hsplit⟩ :
          ∃ seg segs, splitOnUnderscore rest = seg :: segs := by
        cases h : splitOnUnderscore rest with
        | nil => exact absurd h (splitOnUnderscore_ne_nil rest)
        | cons a b => exact ⟨a, b, rfl⟩
      rw [hsplit] at ihF
      simp only [List.headD, List.tail] at ihF
      constructor
      · simp [camelCaseAux, splitOnUnderscore, hc, hsplit, capitalizeSegment, ihF]
      · simp [camelCaseAux, splitOnUnderscore, hc, hsplit, ihF]

/-- C2: for every input string made of ASCII letters, digits and
underscores, `camelCase` returns the string obtained by splitting on
underscores, capitalizing the first letter of every segment and
concatenating with no separator; no underscore appears in the output, and
the empty string maps to the empty string. -/
theorem camelCase_spec (s : String) (h : ∀ c ∈ s.data, isIdentChar c) :
    camelCase s = specCamelCase s
    ∧ '_' ∉ (camelCase s).data
    ∧ camelCase "" = "" := by
  refine ⟨?_, ?_, rfl⟩
  · by_cases hs : s = ""
    · subst hs; rfl
    · simp only [camelCase, if_neg hs]
      unfold specCamelCase
      exact congrArg _ (camelCaseAux_eq_spec s.data).1
  · by_cases hs : s = ""
    · subst hs; simp [camelCase]
    · simp only [camelCase, if_neg hs]
      exact underscore_not_mem_camelCaseAux s.data true

theorem camelCase_spec_witness :
    (∀ c ∈ "user_id".data, isIdentChar c)
    ∧ camelCase "user_id" = specCamelCase "user_id"
    ∧ camelCase "user_id" = "UserId"
    ∧ camelCase "__a_b__" = "AB"
    ∧ camelCase "" = "" :=
  ⟨by decide, (camelCase_spec "user_id" (by decide)).1, by decide, by decide, rfl⟩

/-- C10: in `camelCase`, capitalization applies only to lowercase ASCII
letters; any other character at the start of a segment is copied
unchanged and still consumes the pending capitalization, so the next
character is processed with the flag cleared; an underscore re-arms the
flag regardless of its current state. -/
theorem camelCase_segment_initial (c : Char) (l : List Char)
    (hc : c ≠ '_') (hlow : ¬('a' ≤ c ∧ c ≤ 'z')) :
    camelCaseAux (c :: l) true = c :: camelCaseAux l false
    ∧ ∀ b : Bool, camelCaseAux ('_' :: l) b = camelCaseAux l true := by
  constructor
  · simp [camelCaseAux, hc, hlow]
  · intro b
    simp [camelCaseAux]

theorem camelCase_segment_initial_witness :
    ('2' ≠ '_' ∧ ¬('a' ≤ '2' ∧ '2' ≤ 'z')
      ∧ camelCaseAux ('2' :: ['f', 'a']) true = '2' :: camelCaseAux ['f', 'a'] false)
    ∧ camelCase "user_2fa" = "User2fa" :=
  ⟨⟨by decide, by decide,
      (camelCase_segment_initial '2' ['f', 'a'] (by decide) (by decide)).1⟩,
    by decide⟩

theorem afterLastDot_eq_none (l : List Char) (h : '.' ∉ l) :
    afterLastDot l = none := by
  induction l with
  | nil => rfl
  | cons c rest ih =>
    simp only [List.mem_cons, not_or] at h
    have hc : c ≠ '.' := fun hh => h.1 hh.symm
    simp [afterLastDot, ih h.2, hc]

theorem afterLastDot_append (p q : List Char) (h : '.' ∉ q) :
    afterLastDot (p ++ '.' :: q) = some q := by
  induction p with
  | nil => simp [afterLastDot, afterLastDot_eq_none q h]
  | cons c p' ih => simp [afterLastDot, ih]

/-- C4: `getTypeName` returns the substring after the last '.'; with no
'.' present it returns the whole string; it is total, and the empty
string yields the empty string. -/
theorem getTypeName_spec :
    (∀ s : String, '.' ∉ s.data → getTypeName s = s)
    ∧ (∀ p q : String, '.' ∉ q.data → getTypeName (p ++ "." ++ q) = q)
    ∧ getTypeName "" = "" := by
  refine ⟨?_, ?_, rfl⟩
  · intro s h
    unfold getTypeName
    rw [afterLastDot_eq_none s.data h]
  · intro p q h
    unfold getTypeName
    have hd : (p ++ "." ++ q).data = p.data ++ '.' :: q.data := by
      rw [String.data_append, String.data_append, List.append_assoc]
      rfl
    rw [hd, afterLastDot_append p.data q.data h]

theorem getTypeName_spec_witness :
    ('.' ∉ "Inner".data ∧ getTypeName (".pkg.Outer" ++ "." ++ "Inner") = "Inner")
    ∧ getTypeName ".pkg.Outer.Inner" = "Inner"
    ∧ getTypeName "NoDots" = "NoDots"
    ∧ getTypeName "" = "" :=
  ⟨⟨by decide, getTypeName_spec.2.1 ".pkg.Outer" "Inner" (by decide)⟩,
    by decide, by decide, rfl⟩

/-- C3: `getGoType` first resolves the base type by the fixed kind table
(message gives a starred local name, enum the bare local name) and only
afterwards wraps the resolved type in the slice container when the label
is repeated. -/
theorem getGoType_spec (f : FieldDescriptorProto) :
    (f.type = .TYPE_STRING →
      getGoType f = if f.label = .LABEL_REPEATED then "[]" ++ "string" else "string")
    ∧ (f.type = .TYPE_INT32 →
      getGoType f = if f.label = .LABEL_REPEATED then "[]" ++ "int32" else "int32")
    ∧ (f.type = .TYPE_INT64 →
      getGoType f = if f.label = .LABEL_REPEATED then "[]" ++ "int64" else "int64")
    ∧ (f.type = .TYPE_UINT32 →
      getGoType f = if f.label = .LABEL_REPEATED then "[]" ++ "uint32" else "uint32")
    ∧ (f.type = .TYPE_UINT64 →
      getGoType f = if f.label = .LABEL_REPEATED then "[]" ++ "uint64" else "uint64")
    ∧ (f.type = .TYPE_BOOL →
      getGoType f = if f.label = .LABEL_REPEATED then "[]" ++ "bool" else "bool")
    ∧ (f.type = .TYPE_FLOAT →
      getGoType f = if f.label = .LABEL_REPEATED then "[]" ++ "float32" else "float32")
    ∧ (f.type = .TYPE_DOUBLE →
      getGoType f = if f.label = .LABEL_REPEATED then "[]" ++ "float64" else "float64")
    ∧ (f.type = .TYPE_BYTES →
      getGoType f = if f.label = .LABEL_REPEATED then "[]" ++ "[]byte" else "[]byte")
    ∧ (f.type = .TYPE_MESSAGE →
      getGoType f = if f.label = .LABEL_REPEATED
        then "[]" ++ ("*" ++ getTypeName f.typeName)
        else "*" ++ getTypeName f.typeName)
    ∧ (f.type = .TYPE_ENUM →
      getGoType f = if f.label = .LABEL_REPEATED
        then "[]" ++ getTypeName f.typeName
        else getTypeName f.typeName) := by
  obtain ⟨n, t, lb, tn⟩ := f
  refine ⟨?_, ?_, ?_, ?_, ?_, ?_, ?_, ?_, ?_, ?_, ?_⟩ <;>
    (intro h; subst h; cases lb <;> simp [getGoType])

theorem getGoType_spec_witness :
    getGoType ⟨"tags", .TYPE_INT32, .LABEL_REPEATED, ""⟩ = "[]int32"
    ∧ getGoType ⟨"addr", .TYPE_MESSAGE, .LABEL_OPTIONAL, ".pkg.Outer.Inner"⟩
        = "*Inner"
    ∧ getGoType ⟨"items", .TYPE_MESSAGE, .LABEL_REPEATED, ".pkg.T"⟩ = "[]*T"
    ∧ getGoType ⟨"name", .TYPE_STRING, .LABEL_OPTIONAL, ""⟩ = "string" :=
  ⟨by rw [(getGoType_spec ⟨"tags", .TYPE_INT32, .LABEL_REPEATED, ""⟩).2.1 rfl]; rfl,
    by rw [((getGoType_spec
        ⟨"addr", .TYPE_MESSAGE, .LABEL_OPTIONAL, ".pkg.Outer.Inner"⟩).2.2.2.2.2.2.2.2.2.1) rfl]; rfl,
    by rw [((getGoType_spec
        ⟨"items", .TYPE_MESSAGE, .LABEL_REPEATED, ".pkg.T"⟩).2.2.2.2.2.2.2.2.2.1) rfl]; rfl,
    by rw [(getGoType_spec ⟨"name", .TYPE_STRING, .LABEL_OPTIONAL, ""⟩).1 rfl]; rfl⟩

/-- C7: for a field whose kind is none of the recognized
scalar/message/enum kinds, `getGoType` falls back to the untyped
placeholder, wrapped in the slice container when the label is repeated,
so resolution never fails on an unknown kind. -/
theorem getGoType_fallback (f : FieldDescriptorProto)
    (h : f.type ∉ ([.TYPE_STRING, .TYPE_INT32, .TYPE_INT64, .TYPE_UINT32,
        .TYPE_UINT64, .TYPE_BOOL, .TYPE_FLOAT, .TYPE_DOUBLE, .TYPE_BYTES,
        .TYPE_MESSAGE, .TYPE_ENUM] : List FieldType)) :
    getGoType f = if f.label = .LABEL_REPEATED
      then "[]" ++ "interface\x7b\x7d" else "interface\x7b\x7d" := by
  obtain ⟨n, t, lb, tn⟩ := f
  cases t <;> simp_all <;> cases lb <;> simp [getGoType]

theorem stringJoin_cons (s : String) (l : List String) :
    String.join (s :: l) = s ++ String.join l := by
  have key : ∀ (l : List String) (a : String),
      l.foldl (fun r t => r ++ t) a = a ++ l.foldl (fun r t => r ++ t) "" := by
    intro l
    induction l with
    | nil =>
      intro a
      simp [String.append_empty]
    | cons t rest ih =>
      intro a
      simp only [List.foldl]
      rw [ih (a ++ t), ih (("" : String) ++ t), String.append_assoc]
      have h0 : ("" : String) ++ t = t := by simp
      rw [h0]
  simp only [String.join, List.foldl]
  rw [key l (("" : String) ++ s)]
  have h0 : ("" : String) ++ s = s := by simp
  rw [h0]

theorem generateMessages_eq_join (l : List DescriptorProto) (pfx : String) :
    generateMessages l pfx
      = String.join (l.map (fun m => generateMessage m pfx)) := by
  induction l with
  | nil => simp [generateMessages, String.join]
  | cons m rest ih =>
    simp only [generateMessages, List.map]
    rw [stringJoin_cons, ih]

theorem endsBlank_of_brace (s : String) :
    ∃ t, s ++ "\x7d\n\n" = t ++ "\n\n" :=
  ⟨s ++ "\x7d", by rw [String.append_assoc]; rfl⟩

theorem endsBlank_append (x y : String) (hx : ∃ t, x = t ++ "\n\n")
    (hy : y = "" ∨ ∃ t, y = t ++ "\n\n") : ∃ t, x ++ y = t ++ "\n\n" := by
  rcases hy with rfl | ⟨t, rfl⟩
  · simpa [String.append_empty] using hx
  · exact ⟨x ++ t, by rw [String.append_assoc]⟩

mutual

theorem generateMessage_endsBlank : (m : DescriptorProto) → (pfx : String) →
    ∃ t, generateMessage m pfx = t ++ "\n\n"
  | .mk nm fields nested, pfx => by
    simp only [generateMessage]
    exact endsBlank_append _ _ (endsBlank_of_brace _)
      (generateMessages_endsBlank nested (pfx ++ nm ++ "_"))

theorem generateMessages_endsBlank : (l : List DescriptorProto) → (pfx : String) →
    generateMessages l pfx = "" ∨ ∃ t, generateMessages l pfx = t ++ "\n\n"
  | [], pfx => Or.inl (by simp [generateMessages])
  | m :: rest, pfx => Or.inr (by
      simp only [generateMessages]
      exact endsBlank_append _ _ (generateMessage_endsBlank m pfx)
        (generateMessages_endsBlank rest pfx))

end

set_option maxRecDepth 10000 in
/-- C5: `generateMessage` emits a type definition named `pfx ++ name`
with one member per field in descriptor order, followed by the
definitions of all nested messages in declaration order, each recursing
with the emitted name plus an underscore as the new prefix; doubly nested
messages therefore get underscore-chained names such as
`Outer_Inner_Deep`, in depth-first pre-order. -/
theorem generateMessage_spec :
    (∀ (nm : String) (fields : List FieldDescriptorProto)
        (nested : List DescriptorProto) (pfx : String),
      generateMessage (.mk nm fields nested) pfx =
        "// Generated code for message: " ++ (pfx ++ nm) ++ "\n"
          ++ "type " ++ (pfx ++ nm) ++ " struct \x7b\n"
          ++ String.join (fields.map (fun f =>
                "\t" ++ camelCase f.name ++ " " ++ getGoType f
                  ++ " `json:\"" ++ f.name ++ "\"`\n"))
          ++ "\x7d\n\n"
          ++ String.join (nested.map (fun m => generateMessage m (pfx ++ nm ++ "_"))))
    ∧ generateMessage (.mk "Outer" [] [.mk "Inner" [] [.mk "Deep" [] []]]) "" =
        "// Generated code for message: Outer\n"
          ++ "type Outer struct \x7b\n\x7d\n\n"
          ++ "// Generated code for message: Outer_Inner\n"
          ++ "type Outer_Inner struct \x7b\n\x7d\n\n"
          ++ "// Generated code for message: Outer_Inner_Deep\n"
          ++ "type Outer_Inner_Deep struct \x7b\n\x7d\n\n" := by
  constructor
  · intro nm fields nested pfx
    simp only [generateMessage]
    rw [generateMessages_eq_join]
  · simp only [generateMessage, generateMessages]
    decide

/-- C6: `generateFile` emits the package declaration line first, using
the descriptor's package string or the default literal "main" when that
string is empty, followed by the message emitter's output for every
top-level message in declaration order; every message block ends with a
blank line, which separates consecutive blocks. -/
theorem generateFile_spec (file : FileDescriptorProto) :
    (generateFile file = "package "
        ++ (if file.package = "" then "main" else file.package) ++ "\n\n"
        ++ String.join (file.messageType.map (fun m => generateMessage m "")))
    ∧ (file.package = "" → generateFile file = "package " ++ "main" ++ "\n\n"
        ++ String.join (file.messageType.map (fun m => generateMessage m "")))
    ∧ (∀ (m : DescriptorProto) (pfx : String),
        ∃ t, generateMessage m pfx = t ++ "\n\n") := by
  refine ⟨?_, ?_, fun m pfx => generateMessage_endsBlank m pfx⟩
  · simp only [generateFile]
    rw [generateMessages_eq_join]
  · intro h
    simp only [generateFile, h, if_pos]
    rw [generateMessages_eq_join]

set_option maxRecDepth 10000 in
theorem generateFile_spec_witness :
    (("" : String) = ""
      ∧ generateFile ⟨"a.proto", "", [.mk "M" [] []]⟩ =
          "package " ++ "main" ++ "\n\n"
            ++ String.join ([DescriptorProto.mk "M" [] []].map
                (fun m => generateMessage m "")))
    ∧ generateFile ⟨"a.proto", "", [.mk "M" [] []]⟩ =
        "package main\n\n// Generated code for message: M\ntype M struct \x7b\n\x7d\n\n" := by
  refine ⟨⟨rfl, (generateFile_spec ⟨"a.proto", "", [.mk "M" [] []]⟩).2.1 rfl⟩, ?_⟩
  simp only [generateFile, generateMessages, generateMessage]
  decide

theorem findFile_eq_find (pool : List FileDescriptorProto) (nm : String) :
    findFile pool nm = pool.find? (fun f => f.name == nm) := by
  induction pool with
  | nil => rfl
  | cons f rest ih =>
    by_cases h : f.name = nm
    · simp [findFile, List.find?, h]
    · have hb : (f.name == nm) = false := beq_eq_false_iff_ne.mpr h
      simp [findFile, List.find?, h, hb, ih]

theorem generateLoop_eq_filterMap (names : List String)
    (pool : List FileDescriptorProto) :
    generateLoop names pool = names.filterMap (fun fileName =>
      (pool.find? (fun f => f.name == fileName)).map
        (fun file => ⟨fileName ++ ".generated.go", generateFile file⟩)) := by
  induction names with
  | nil => rfl
  | cons nm rest ih =>
    simp only [generateLoop, List.filterMap_cons]
    rw [← findFile_eq_find]
    cases h : findFile pool nm <;> simp [h, ih]

/-- C1: `Generate` walks the requested names in request order; each name
is matched against the pool by `List.find?` (the first descriptor whose
name equals it exactly); an unmatched name contributes nothing and a
matched one contributes exactly one record named
`fileName ++ ".generated.go"` whose content is `generateFile` of the
matched descriptor — precisely a `filterMap` over the requested names. -/
theorem Generate_files_spec (req : CodeGeneratorRequest) :
    (Generate req).file = req.fileToGenerate.filterMap (fun fileName =>
      (req.protoFile.find? (fun f => f.name == fileName)).map
        (fun file => ResponseFile.mk (fileName ++ ".generated.go")
          (generateFile file))) :=
  generateLoop_eq_filterMap req.fileToGenerate req.protoFile

/-- C8: every response has the optional-presence capability value set,
unconditionally in the request, and that feature constant is 1. -/
theorem Generate_features_spec (req : CodeGeneratorRequest) :
    (Generate req).supportedFeatures = some FEATURE_PROTO3_OPTIONAL
    ∧ FEATURE_PROTO3_OPTIONAL = 1 :=
  ⟨rfl, rfl⟩

/-- C9: generation is deterministic — equal requests produce equal
responses; `Generate` is a pure function of its request with no other
inputs. -/
theorem Generate_deterministic (req₁ req₂ : CodeGeneratorRequest)
    (h : req₁ = req₂) : Generate req₁ = Generate req₂ := by
  rw [h]

theorem Generate_deterministic_witness :
    Generate ⟨["a.proto"], []⟩ = Generate ⟨["a.proto"], []⟩ :=
  Generate_deterministic ⟨["a.proto"], []⟩ ⟨["a.proto"], []⟩ rfl

theorem getGoType_fallback_witness :
    (FieldType.TYPE_GROUP ∉ ([.TYPE_STRING, .TYPE_INT32, .TYPE_INT64, .TYPE_UINT32,
        .TYPE_UINT64, .TYPE_BOOL, .TYPE_FLOAT, .TYPE_DOUBLE, .TYPE_BYTES,
        .TYPE_MESSAGE, .TYPE_ENUM] : List FieldType))
    ∧ getGoType ⟨"g", .TYPE_GROUP, .LABEL_REPEATED, ""⟩ = "[]interface\x7b\x7d"
    ∧ getGoType ⟨"s", .TYPE_SINT32, .LABEL_OPTIONAL, ""⟩ = "interface\x7b\x7d" :=
  ⟨by decide,
    by rw [getGoType_fallback ⟨"g", .TYPE_GROUP, .LABEL_REPEATED, ""⟩ (by decide)]; rfl,
    by rw [getGoType_fallback ⟨"s", .TYPE_SINT32, .LABEL_OPTIONAL, ""⟩ (by decide)]; rfl⟩

end ProtocGenExample
